import Mathlib

/-!
Verification of the `agent-desktop` repository against its natural-language
specification.

The development shallowly embeds the Python sources `tools.py` and
`agent_loop.py`:

* pure string manipulation (`_expand_path`, truncation in `read_file`,
  message formatting) becomes Lean functions on `String` / `List Char`;
* the operating system (subprocess outcomes, the file system, `os.path`
  queries) is passed in explicitly as data, so each tool becomes a pure
  function from its inputs and an OS outcome to a `ToolResult` and an
  updated state;
* the agent loop `run_agent_loop` becomes a fuel-indexed recursive function
  producing the finite list of emitted `AgentStep`s, parametrised by the
  planner (a function from the conversation so far to the next model turn)
  and by the tool executor.

All platform-conditional code is embedded as executed on a non-Windows
platform (`sys.platform != "win32"`), where `tools.py` defines
`_get_windows_known_folder` to return `None` (tools.py lines 51-54) and the
Windows-only absolute-path fixup block (tools.py lines 77-89) is skipped.
The known-folder lookup is nevertheless kept as an abstract oracle in
`PathEnv` so the dispatch structure of `_expand_path` is preserved.
-/

/-! ## Python string primitives, embedded on `List Char` -/

/-- Python `s.lower()`: lower-case every character. -/
def lowerStr (s : String) : String := ⟨s.data.map Char.toLower⟩

/-- Substring search on char lists: does `needle` occur contiguously in
`hay`? -/
def listContains (needle : List Char) : List Char → Bool
  | [] => needle.isEmpty
  | x :: xs => needle.isPrefixOf (x :: xs) || listContains needle xs

/-- Python `needle in hay`: substring containment. -/
def containsStr (hay needle : String) : Bool := listContains needle.data hay.data

/-- Python `s.startswith(pre)`. -/
def pyStartswith (s pre : String) : Bool := pre.data.isPrefixOf s.data

/-- Python `s.rstrip("/")`: drop every trailing `/`. -/
def rstripSlash (s : String) : String :=
  ⟨(s.data.reverse.dropWhile (fun c => c == '/')).reverse⟩

/-- Python `s.split(c)` for a one-character separator, on char lists. -/
def splitChar (c : Char) : List Char → List (List Char)
  | [] => [[]]
  | x :: xs =>
    let r := splitChar c xs
    if x = c then [] :: r
    else
      match r with
      | [] => [[x]]
      | h :: t => (x :: h) :: t

/-- Python `sep.join(parts)` for a one-character separator, on char lists. -/
def joinChar (c : Char) : List (List Char) → List Char
  | [] => []
  | [x] => x
  | x :: xs => x ++ c :: joinChar c xs

/-- Python `s.split(c)` on strings. -/
def pySplit (s : String) (c : Char) : List String :=
  (splitChar c s.data).map (fun l => ⟨l⟩)

/-- Python `c.join(parts)` on strings. -/
def pyJoin (c : Char) (parts : List String) : String :=
  ⟨joinChar c (parts.map String.data)⟩

/-- Python `s.replace("\\", "/")` (one-character pattern, so a char map). -/
def normalizeSeparators (s : String) : String :=
  ⟨s.data.map (fun c => if c = '\\' then '/' else c)⟩

/-! ## os.path on POSIX -/

/-- POSIX `os.path.isabs`: the path starts with `/`. -/
def isabs (p : String) : Bool := pyStartswith p "/"

/-- POSIX `os.path.join` for two components. -/
def joinPath (a b : String) : String :=
  if pyStartswith b "/" then b
  else if a = "" || pyStartswith (⟨a.data.reverse⟩) "/" then a ++ b
  else a ++ "/" ++ b

/-- POSIX `os.path.join` folded over the remaining components
(`os.path.join(base, *rest)`). -/
def joinPathList (base : String) (rest : List String) : String :=
  rest.foldl joinPath base

/-- Ambient path environment: the user's home directory (`HOME` /
`Path.home()`), the password-database lookup used by `os.path.expanduser`
for `~user` forms, and the known-folder oracle `_get_windows_known_folder`
(constantly `none` on non-Windows platforms, tools.py lines 51-54). -/
structure PathEnv where
  home : String
  pwDir : String → Option String
  knownFolder : String → Option String

/-- POSIX `os.path.expanduser`: a leading `~` or `~user` is replaced by the
corresponding home directory (with trailing slashes stripped); any other
path is returned unchanged; an unknown user leaves the path unchanged. -/
def expanduser (pe : PathEnv) (path : String) : String :=
  if !pyStartswith path "~" then path
  else
    let rest : List Char := path.data.drop 1
    let user : List Char := rest.takeWhile (fun c => c ≠ '/')
    let tail : List Char := rest.dropWhile (fun c => c ≠ '/')
    if user = [] then
      let h := rstripSlash pe.home
      if h.data ++ tail = [] then "/" else ⟨h.data ++ tail⟩
    else
      match pe.pwDir ⟨user⟩ with
      | none => path
      | some d =>
        let h := rstripSlash d
        if h.data ++ tail = [] then "/" else ⟨h.data ++ tail⟩

/-- Embedding of `_expand_path` (tools.py lines 57-108) as executed on a
non-Windows platform: empty path returns `cwd`; a leading `~` goes to
`expanduser`; an absolute path is returned as-is; a relative path whose
first (lower-cased) segment is a known-folder alias consults the
known-folder oracle; otherwise the path is joined onto `cwd`. -/
def expand_path (pe : PathEnv) (path cwd : String) : String :=
  if path = "" then cwd
  else if pyStartswith path "~" then expanduser pe path
  else
    let normalized := normalizeSeparators path
    if isabs path then path
    else
      let parts := pySplit normalized '/'
      let first_part := lowerStr (parts.headD "")
      if first_part = "desktop" || first_part = "documents" || first_part = "downloads" then
        match pe.knownFolder first_part with
        | some known_path =>
          if parts.length > 1 then joinPathList known_path parts.tail
          else known_path
        | none => joinPath cwd path
      else joinPath cwd path

/-! ## Tool results and session state (tools.py) -/

/-- Result of a tool execution (`ToolResult`, tools.py lines 111-117). -/
structure ToolResult where
  success : Bool
  output : String
  error : String := ""
deriving DecidableEq, Repr

/-- One `run_command` history record (`{"command": ..., "cwd": ...,
"exit_code": ...}`, tools.py line 322). -/
structure HistoryEntry where
  command : String
  cwd : String
  exit_code : Int
deriving DecidableEq, Repr

/-- The mutable shell session (`ShellSession`, tools.py lines 120-126). -/
structure ShellSession where
  cwd : String
  env : List (String × String)
  history : List HistoryEntry
deriving DecidableEq, Repr

/-- A fresh session as built by `ShellSession()` / `reset_session`:
home directory as cwd, a snapshot of the process environment, empty
history. -/
def ShellSession.init (pe : PathEnv) (env0 : List (String × String)) : ShellSession :=
  { cwd := pe.home, env := env0, history := [] }

example : expand_path ⟨"/home/u", fun _ => none, fun _ => none⟩ "sub/f" "/home/u" = "/home/u/sub/f" := by decide
example : expand_path ⟨"/home/u", fun _ => none, fun _ => none⟩ "" "/x" = "/x" := by decide
example : expand_path ⟨"/home/u", fun _ => none, fun _ => none⟩ "~/x" "/q" = "/home/u/x" := by decide

/-! ## Tool implementations (tools.py)

Each tool is a pure function of its arguments plus an explicit description
of what the operating system did (subprocess outcome, file-system queries).
-/

/-- Outcome of `subprocess.run` as observed by `run_command`: either the
subprocess completed with an exit code and captured stdout/stderr, or it
timed out (`subprocess.TimeoutExpired`), or some other exception was
raised. -/
inductive ProcOutcome where
  | completed (returncode : Int) (stdout stderr : String)
  | timedOut
  | raised (msg : String)
deriving DecidableEq, Repr

/-- The working directory used by `run_command` (tools.py lines 290-293):
a truthy `working_dir` argument is resolved against the session cwd,
otherwise the session cwd itself is used. -/
def runCommandCwd (pe : PathEnv) (session : ShellSession) (working_dir : Option String) : String :=
  if working_dir.getD "" ≠ "" then expand_path pe (working_dir.getD "") session.cwd
  else session.cwd

/-- Embedding of `run_command` (tools.py lines 285-342).  On completion a
history record is appended and a non-zero exit code becomes a failed
result whose error embeds the exit code and stderr while stdout is kept in
`output`; a timeout or an internal exception is converted to a failed
result before the history append is reached, so the session is returned
unchanged. -/
def run_command (pe : PathEnv) (session : ShellSession) (command : String)
    (working_dir : Option String) (timeout : Nat) (proc : ProcOutcome) :
    ToolResult × ShellSession :=
  let cwd := runCommandCwd pe session working_dir
  match proc with
  | .completed returncode stdout stderr =>
    let session' := { session with
      history := session.history ++ [{ command := command, cwd := cwd, exit_code := returncode }] }
    if returncode ≠ 0 then
      ({ success := false, output := stdout,
         error := "Command failed with exit code " ++ toString returncode ++ "\n" ++ stderr },
       session')
    else
      ({ success := true, output := stdout, error := stderr }, session')
  | .timedOut =>
    ({ success := false, output := "",
       error := "Command timed out after " ++ toString timeout ++ " seconds" }, session)
  | .raised msg =>
    ({ success := false, output := "", error := msg }, session)

/-- What the OS reports about a path for `read_file`: existence, whether it
is a regular file, and the decoded text content (`errors="replace"`
decoding makes the decode total, so content is just a string). -/
structure FileInfo where
  pathExists : Bool
  isFile : Bool
  content : String
deriving DecidableEq, Repr

/-- Embedding of `read_file` (tools.py lines 345-368) for the given resolved
path string and OS view of it.  A falsy `max_lines` (absent or `0`) returns
the whole content; otherwise the content is split on newlines, the first
`max_lines` lines are kept, and a truncation notice is appended exactly
when the kept list has length `max_lines`. -/
def read_file (pathStr : String) (info : FileInfo) (max_lines : Option Nat) : ToolResult :=
  if !info.pathExists then
    { success := false, output := "", error := "File not found: " ++ pathStr }
  else if !info.isFile then
    { success := false, output := "", error := "Not a file: " ++ pathStr }
  else
    let ml := max_lines.getD 0
    if ml ≠ 0 then
      let lines := (pySplit info.content '\n').take ml
      let content := pyJoin '\n' lines
      let content :=
        if lines.length = ml then
          content ++ "\n... (truncated, showing first " ++ toString ml ++ " lines)"
        else content
      { success := true, output := content }
    else
      { success := true, output := info.content }

/-- A file system, for `write_file`: an association of paths to text file
contents (first binding wins) and the set of existing directories. -/
structure FS where
  files : List (String × String)
  dirs : List String
deriving DecidableEq, Repr

/-- `pathlib.Path(p).parent` for a plain path string: everything before the
last `/` (root stays `/`; a bare name has parent `.`). -/
def parentDir (p : String) : String :=
  let pre := (p.data.reverse.dropWhile (fun c => c ≠ '/')).reverse
  if pre = [] then "."
  else if pre.dropLast = [] then "/"
  else ⟨pre.dropLast⟩

/-- Every ancestor directory created by `mkdir(parents=True)` for `d`:
each proper prefix of `d` ending just before a `/`, and `d` itself. -/
def mkdirChain (d : String) : List String :=
  ((List.range d.data.length).filterMap (fun i =>
    if d.data.get? i = some '/' ∧ i ≠ 0 then some (⟨d.data.take i⟩ : String) else none))
    ++ [d]

/-- `path.parent.mkdir(parents=True, exist_ok=True)`: add the parent chain
to the file system's directories. -/
def mkdirParents (fs : FS) (d : String) : FS :=
  { fs with dirs := mkdirChain d ++ fs.dirs }

/-- Embedding of `write_file` (tools.py lines 371-390) in the no-OS-error
case: resolve the path, create parent directories, then either append to
the current content (an absent file reads as empty, as `open(path, "a")`
creates it) or overwrite.  Reports the byte count of the written content. -/
def write_file (pe : PathEnv) (cwd : String) (fs : FS) (path content : String)
    (append : Bool) : ToolResult × FS :=
  let p := expand_path pe path cwd
  let fs₁ := mkdirParents fs (parentDir p)
  let newContent :=
    if append then ((fs₁.files.lookup p).getD "") ++ content else content
  let fs₂ := { fs₁ with files := (p, newContent) :: fs₁.files }
  let action := if append then "Appended to" else "Wrote"
  ({ success := true,
     output := action ++ " " ++ p ++ " (" ++ toString content.length ++ " bytes)" }, fs₂)

/-- Embedding of `change_directory` (tools.py lines 438-460): resolve and
absolutise the path (`os.path.abspath` is an OS-supplied normalisation,
passed in), reject a missing path or a non-directory, otherwise update the
session cwd.  The history is untouched in every branch. -/
def change_directory (pe : PathEnv) (session : ShellSession) (path : String)
    (abspath : String → String) (osExists osIsDir : Bool) :
    ToolResult × ShellSession :=
  let p := abspath (expand_path pe path session.cwd)
  if !osExists then
    ({ success := false, output := "", error := "Directory not found: " ++ p }, session)
  else if !osIsDir then
    ({ success := false, output := "", error := "Not a directory: " ++ p }, session)
  else
    ({ success := true, output := "Changed directory to: " ++ p },
     { session with cwd := p })

/-! ## Tool dispatcher (tools.py lines 477-503) -/

/-- A parsed JSON-object argument payload, modelled as key/value pairs. -/
abbrev ToolArgs : Type := List (String × String)

/-- The keys of the `TOOL_FUNCTIONS` dispatch table (tools.py lines
477-485): the seven-tool catalog. -/
def TOOL_FUNCTION_NAMES : List String :=
  ["run_command", "read_file", "write_file", "list_directory",
   "get_current_directory", "change_directory", "task_complete"]

/-- Embedding of `execute_tool` (tools.py lines 488-503).  A name outside
the catalog returns a failed result naming the unknown tool before any
tool implementation runs; a known name invokes the implementation `impl`
(which bundles the dict lookup, the keyword-argument application and the
`TypeError`/`Exception` recovery of lines 493-503, all of which return a
`ToolResult` rather than raising).  Totality of this Lean function is the
never-raises guarantee. -/
def execute_tool {σ : Type} (impl : String → ToolArgs → σ → ToolResult × σ)
    (name : String) (arguments : ToolArgs) (s : σ) : ToolResult × σ :=
  if name ∉ TOOL_FUNCTION_NAMES then
    ({ success := false, output := "", error := "Unknown tool: " ++ name }, s)
  else impl name arguments s

/-! ## Agent loop (agent_loop.py)

`run_agent_loop` is embedded as a fuel-indexed recursion producing the
finite list of `AgentStep`s yielded by the generator.  The planner
(`client.chat.completions.create`) is a caller-supplied function from the
conversation so far to the next model turn; a turn is either a response
(text content plus proposed tool calls, with Python falsy `None`/empty
modelled as the empty string and empty list) or a raised exception.  Tool
execution (`execute_tool`) is a caller-supplied state transformer over an
abstract state `σ` — its results never influence control flow except
through the name `task_complete`, exactly as in the source.
-/

/-- One proposed tool invocation of an assistant turn: correlation id,
function name and the raw (unparsed) JSON argument payload. -/
structure ToolCall where
  id : String
  name : String
  argsRaw : String
deriving DecidableEq, Repr

/-- A conversation message (the dicts appended to `messages`). -/
structure Message where
  role : String
  content : String
  tool_call_id : Option String := none
  tool_calls : List ToolCall := []
deriving DecidableEq, Repr

/-- A planner response: optional text content (empty string for Python
`None` or `""`, which the source treats identically via truthiness) and
the proposed tool calls. -/
structure PlannerResponse where
  content : String
  tool_calls : List ToolCall
deriving DecidableEq, Repr

/-- One planner turn: a response, or an exception raised by the client
call (caught by the `except` at agent_loop.py line 271). -/
inductive PlannerTurn where
  | ok (resp : PlannerResponse)
  | exn (msg : String)

/-- A planner behaviour: what the model returns given the conversation so
far.  Quantifying over all such functions covers every possible run. -/
def Planner : Type := List Message → PlannerTurn

/-- A single step in the agent's execution (`AgentStep`,
agent_loop.py lines 37-45). -/
structure AgentStep where
  step_number : Nat
  type : String
  content : String
  tool_name : Option String := none
  tool_args : Option ToolArgs := none
  tool_result : Option ToolResult := none
deriving DecidableEq, Repr

/-- The text recorded for a tool result (agent_loop.py lines 186-188):
the output, with the error appended when present. -/
def resultContent (r : ToolResult) : String :=
  if r.error ≠ "" then r.output ++ "\n\nError: " ++ r.error else r.output

/-- The `for tool_call in message.tool_calls` body (agent_loop.py lines
162-219): for each call, parse its arguments (a malformed payload becomes
the empty argument set), yield a `tool_call` step, execute, append a tool
message, yield a `tool_result` step; on `task_complete` additionally yield
a `complete` step and stop (the returned flag records that the run
terminates here, skipping all remaining calls). -/
def processCalls {σ : Type} (exec : σ → String → ToolArgs → ToolResult × σ)
    (parse : String → Option ToolArgs) (n : Nat) :
    σ → List Message → List ToolCall → List AgentStep × List Message × σ × Bool
  | s, msgs, [] => ([], msgs, s, false)
  | s, msgs, tc :: rest =>
    let tool_args := (parse tc.argsRaw).getD []
    let callStep : AgentStep :=
      { step_number := n, type := "tool_call", content := "Calling " ++ tc.name,
        tool_name := some tc.name, tool_args := some tool_args }
    let es := exec s tc.name tool_args
    let rc := resultContent es.1
    let msgs' := msgs ++ [{ role := "tool", content := rc, tool_call_id := some tc.id }]
    let resultStep : AgentStep :=
      { step_number := n, type := "tool_result", content := rc,
        tool_name := some tc.name, tool_result := some es.1 }
    if tc.name = "task_complete" then
      ([callStep, resultStep,
        { step_number := n, type := "complete", content := es.1.output }],
       msgs', es.2, true)
    else
      let r := processCalls exec parse n es.2 msgs' rest
      (callStep :: resultStep :: r.1, r.2.1, r.2.2.1, r.2.2.2)

/-- The completion-phrase heuristic (agent_loop.py lines 227-231): the
lower-cased content contains one of the closure phrases. -/
def isCompletePhrase (content : String) : Bool :=
  ["completed", "done", "finished", "task complete",
   "let me know", "anything else", "help you with"].any
    (fun phrase => containsStr (lowerStr content) phrase)

/-- The budget-exhaustion message (agent_loop.py line 286). -/
def maxStepsMessage (max_steps : Nat) : String :=
  "Maximum steps (" ++ toString max_steps ++ ") reached without completing the task"

/-- The `while step_number < max_steps` loop of `run_agent_loop`
(agent_loop.py lines 116-290), with `fuel = max_steps - step_number` as
the recursion measure.  `step_number` is the value after the previous
iteration's increment, `ctr` is `consecutive_text_responses`, and the
constant `2` in the text branch is `max_text_responses`
(agent_loop.py line 114). -/
def loopAux {σ : Type} (planner : Planner) (exec : σ → String → ToolArgs → ToolResult × σ)
    (parse : String → Option ToolArgs) (max_steps : Nat) :
    Nat → Nat → Nat → List Message → σ → List AgentStep
  | 0, step_number, _, _, _ =>
    [{ step_number := step_number, type := "error", content := maxStepsMessage max_steps }]
  | fuel + 1, step_number, ctr, msgs, s =>
    let n := step_number + 1
    match planner msgs with
    | .exn m => [{ step_number := n, type := "error", content := "Error: " ++ m }]
    | .ok resp =>
      if resp.tool_calls ≠ [] then
        let msgs₁ := msgs ++
          [{ role := "assistant", content := resp.content, tool_calls := resp.tool_calls }]
        let pre : List AgentStep :=
          if resp.content ≠ "" then
            [{ step_number := n, type := "thinking", content := resp.content }]
          else []
        let r := processCalls exec parse n s msgs₁ resp.tool_calls
        if r.2.2.2 then pre ++ r.1
        else pre ++ r.1 ++ loopAux planner exec parse max_steps fuel n 0 r.2.1 r.2.2.1
      else
        let ctr' := ctr + 1
        if resp.content ≠ "" then
          if isCompletePhrase resp.content || ctr' ≥ 2 then
            [{ step_number := n, type := "complete", content := resp.content }]
          else
            { step_number := n, type := "thinking", content := resp.content } ::
              loopAux planner exec parse max_steps fuel n ctr'
                (msgs ++ [{ role := "assistant", content := resp.content }]) s
        else
          [{ step_number := n, type := "error",
             content := "Received empty response from model" }]

/-- The system prompt (agent_loop.py lines 48-78), with the OS-specific
instruction line supplied by the caller. -/
def get_system_prompt (os_instructions : String) : String :=
  "You are an AI assistant that helps users accomplish tasks by executing commands and managing files.\n" ++
  os_instructions

/-- Embedding of `run_agent_loop` (agent_loop.py lines 81-290): seed the
conversation with the system prompt and the task (plus optional context),
then run the loop with a fresh tool state `s₀` (the `reset_session()`
call) and the full step budget as fuel. -/
def run_agent_loop {σ : Type} (planner : Planner)
    (exec : σ → String → ToolArgs → ToolResult × σ)
    (parse : String → Option ToolArgs) (os_instructions task context : String)
    (max_steps : Nat) (s₀ : σ) : List AgentStep :=
  let messages : List Message :=
    [{ role := "system", content := get_system_prompt os_instructions },
     { role := "user", content := if context ≠ "" then task ++ "\n\n" ++ context else task }]
  loopAux planner exec parse max_steps max_steps 0 0 messages s₀

/-! ## General lemmas about the string primitives -/

theorem strData_append (a b : String) : (a ++ b).data = a.data ++ b.data := rfl

theorem strData_mk (l : List Char) : (⟨l⟩ : String).data = l := rfl

theorem listContains_of_infix {l₁ l₂ : List Char} (h : l₁ <:+: l₂) :
    listContains l₁ l₂ = true := by
  induction l₂ with
  | nil =>
    rw [List.infix_nil] at h
    subst h
    rfl
  | cons x xs ih =>
    rw [List.infix_cons_iff] at h
    rcases h with h | h
    · simp [listContains, List.isPrefixOf_iff_prefix, h]
    · simp [listContains, ih h]

theorem containsStr_of_infix {s m : String} (h : m.data <:+: s.data) :
    containsStr s m = true :=
  listContains_of_infix h

theorem lowerStr_append (a b : String) :
    lowerStr (a ++ b) = lowerStr a ++ lowerStr b := by
  apply String.ext
  simp [lowerStr, strData_append]

/-! ## C3: unknown tool names -/

/-- C3: for every name outside the seven-tool catalog and every argument
mapping, `execute_tool` returns a failed `ToolResult` whose error text
mentions "unknown" (case-insensitively) and names the tool, leaving the
tool state untouched; totality of the embedded dispatcher is the
never-raises guarantee (the unknown-name branch returns before any tool
implementation runs). -/
theorem execute_tool_unknown_name {σ : Type}
    (impl : String → ToolArgs → σ → ToolResult × σ)
    (name : String) (arguments : ToolArgs) (s : σ)
    (h : name ∉ TOOL_FUNCTION_NAMES) :
    execute_tool impl name arguments s =
      ({ success := false, output := "", error := "Unknown tool: " ++ name }, s) ∧
    containsStr (lowerStr ("Unknown tool: " ++ name)) "unknown" = true ∧
    containsStr ("Unknown tool: " ++ name) name = true := by
  refine ⟨?_, ?_, ?_⟩
  · simp [execute_tool, h]
  · apply containsStr_of_infix
    rw [lowerStr_append]
    have h1 : lowerStr "Unknown tool: " = "unknown tool: " := by decide
    rw [h1]
    have h2 : ("unknown tool: " : String).data = ("unknown" : String).data ++ (" tool: " : String).data := by decide
    rw [strData_append, h2, List.append_assoc]
    exact ⟨[], (" tool: " : String).data ++ (lowerStr name).data, rfl⟩
  · apply containsStr_of_infix
    rw [strData_append]
    exact ⟨("Unknown tool: " : String).data, [], by simp⟩

/-- A concrete instance of C3: the name "frobnicate" is not in the catalog
and is rejected with the expected error. -/
theorem execute_tool_unknown_name_witness :
    ("frobnicate" : String) ∉ TOOL_FUNCTION_NAMES ∧
    (execute_tool (σ := Unit) (fun _ _ s => ({ success := true, output := "" }, s))
        "frobnicate" [] () =
      ({ success := false, output := "", error := "Unknown tool: frobnicate" }, ()) ∧
     containsStr (lowerStr ("Unknown tool: " ++ "frobnicate")) "unknown" = true ∧
     containsStr ("Unknown tool: " ++ "frobnicate") "frobnicate" = true) := by
  refine ⟨by decide, ?_⟩
  have h := execute_tool_unknown_name (σ := Unit)
    (fun _ _ s => ({ success := true, output := "" }, s)) "frobnicate" [] () (by decide)
  exact ⟨h.1, h.2.1, h.2.2⟩

/-! ## C4 and C5: run_command -/

/-- C4: whenever the subprocess exits with a non-zero status, `run_command`
reports failure with an error message embedding the exit code and the
captured stderr, while the captured stdout is preserved verbatim in the
output field. -/
theorem run_command_nonzero_exit (pe : PathEnv) (session : ShellSession)
    (command : String) (working_dir : Option String) (timeout : Nat)
    (rc : Int) (out err : String) (h : rc ≠ 0) :
    (run_command pe session command working_dir timeout (.completed rc out err)).1.success = false ∧
    (run_command pe session command working_dir timeout (.completed rc out err)).1.output = out ∧
    (run_command pe session command working_dir timeout (.completed rc out err)).1.error =
      "Command failed with exit code " ++ toString rc ++ "\n" ++ err ∧
    containsStr (run_command pe session command working_dir timeout (.completed rc out err)).1.error
      (toString rc) = true ∧
    containsStr (run_command pe session command working_dir timeout (.completed rc out err)).1.error
      err = true := by
  have hres :
      (run_command pe session command working_dir timeout (.completed rc out err)).1 =
        { success := false, output := out,
          error := "Command failed with exit code " ++ toString rc ++ "\n" ++ err } := by
    simp [run_command, h]
  refine ⟨by rw [hres], by rw [hres], by rw [hres], ?_, ?_⟩
  · rw [hres]
    apply containsStr_of_infix
    rw [strData_append, strData_append, strData_append]
    exact ⟨("Command failed with exit code " : String).data,
      ("\n" : String).data ++ err.data, by simp⟩
  · rw [hres]
    apply containsStr_of_infix
    rw [strData_append]
    exact ⟨("Command failed with exit code " ++ toString rc ++ "\n" : String).data, [], by simp⟩

/-- A concrete instance of C4: `false`-like command exiting 1 with partial
stdout "partial" and stderr "boom". -/
theorem run_command_nonzero_exit_witness :
    (1 : Int) ≠ 0 ∧
    ((run_command ⟨"/home/u", fun _ => none, fun _ => none⟩
        ⟨"/home/u", [], []⟩ "ls x" none 60 (.completed 1 "partial" "boom")).1.success = false ∧
     (run_command ⟨"/home/u", fun _ => none, fun _ => none⟩
        ⟨"/home/u", [], []⟩ "ls x" none 60 (.completed 1 "partial" "boom")).1.output = "partial" ∧
     (run_command ⟨"/home/u", fun _ => none, fun _ => none⟩
        ⟨"/home/u", [], []⟩ "ls x" none 60 (.completed 1 "partial" "boom")).1.error =
       "Command failed with exit code " ++ toString (1 : Int) ++ "\n" ++ "boom" ∧
     containsStr (run_command ⟨"/home/u", fun _ => none, fun _ => none⟩
        ⟨"/home/u", [], []⟩ "ls x" none 60 (.completed 1 "partial" "boom")).1.error
       (toString (1 : Int)) = true ∧
     containsStr (run_command ⟨"/home/u", fun _ => none, fun _ => none⟩
        ⟨"/home/u", [], []⟩ "ls x" none 60 (.completed 1 "partial" "boom")).1.error
       "boom" = true) := by
  refine ⟨by decide, ?_⟩
  exact run_command_nonzero_exit ⟨"/home/u", fun _ => none, fun _ => none⟩
    ⟨"/home/u", [], []⟩ "ls x" none 60 1 "partial" "boom" (by decide)

/-- Counterexample to C5 as stated: an invocation of `run_command` that
ends in a timeout appends no history record at all (the append at
tools.py line 321 is unreachable once `subprocess.run` raises
`TimeoutExpired`), so it is not the case that every invocation — including
timeouts — appends exactly one record. -/
theorem run_command_timeout_appends_nothing :
    (run_command ⟨"/home/u", fun _ => none, fun _ => none⟩
        ⟨"/home/u", [], []⟩ "sleep 100" none 60 .timedOut).2.history.length = 0 ∧
    ¬ ((run_command ⟨"/home/u", fun _ => none, fun _ => none⟩
        ⟨"/home/u", [], []⟩ "sleep 100" none 60 .timedOut).2.history.length =
      (⟨"/home/u", [], []⟩ : ShellSession).history.length + 1) := by
  constructor
  · rfl
  · decide

/-- C5 (amended): an invocation of `run_command` whose subprocess run
completes (with any exit status) appends exactly one
`{command, cwd, exit_code}` record to the session history; an invocation
that ends in a timeout or an internal exception appends none; and
`change_directory` — the only other tool that touches the session — never
modifies the history.  (The remaining tools never write the session at
all: in this embedding their types do not even return one.) -/
theorem run_command_history_discipline (pe : PathEnv) (session : ShellSession)
    (command : String) (working_dir : Option String) (timeout : Nat) :
    (∀ rc out err,
      (run_command pe session command working_dir timeout (.completed rc out err)).2.history =
        session.history ++
          [{ command := command, cwd := runCommandCwd pe session working_dir, exit_code := rc }]) ∧
    (run_command pe session command working_dir timeout .timedOut).2.history = session.history ∧
    (∀ msg, (run_command pe session command working_dir timeout (.raised msg)).2.history =
      session.history) ∧
    (∀ path abspath osExists osIsDir,
      (change_directory pe session path abspath osExists osIsDir).2.history = session.history) := by
  refine ⟨?_, rfl, fun _ => rfl, ?_⟩
  · intro rc out err
    by_cases h : rc = 0 <;> simp [run_command, h]
  · intro path abspath osExists osIsDir
    cases osExists <;> cases osIsDir <;> simp [change_directory]

/-! ## C6: path resolution -/

/-- C6: path resolution satisfies the three clauses of the claim.  The
empty path resolves to `cwd` unchanged; `~/x` resolves to the user's home
directory joined with `x` (stated for a home directory with no trailing
slash, expressed as a `rstripSlash` fixed point), with `cwd` nowhere
consulted; and a non-empty relative path that does not start with `~` and
whose first segment is not a known-folder alias is joined onto `cwd` with
`os.path.join`. -/
theorem expand_path_spec (pe : PathEnv) (hhome : rstripSlash pe.home = pe.home) :
    (∀ cwd, expand_path pe "" cwd = cwd) ∧
    (∀ x cwd, expand_path pe ("~/" ++ x) cwd = pe.home ++ "/" ++ x) ∧
    (∀ path cwd, path ≠ "" → pyStartswith path "~" = false → isabs path = false →
      lowerStr ((pySplit (normalizeSeparators path) '/').headD "") ∉
        (["desktop", "documents", "downloads"] : List String) →
      expand_path pe path cwd = joinPath cwd path) := by
  refine ⟨fun cwd => rfl, ?_, ?_⟩
  · intro x cwd
    have hne : ("~/" ++ x) ≠ "" := by
      intro h
      have := congrArg String.data h
      simp [strData_append] at this
    have hstart : pyStartswith ("~/" ++ x) "~" = true := by
      simp [pyStartswith, strData_append, List.isPrefixOf]
    have hdata : ("~/" ++ x).data = '~' :: '/' :: x.data := rfl
    rw [expand_path]
    rw [if_neg hne, if_pos hstart]
    rw [expanduser, hstart]
    simp only [Bool.not_true, Bool.false_eq_true, if_false, hdata]
    simp only [List.drop_succ_cons, List.drop_zero]
    have htake : ('/' :: x.data).takeWhile (fun c => c ≠ '/') = [] := by
      simp [List.takeWhile_cons]
    have hdrop : ('/' :: x.data).dropWhile (fun c => c ≠ '/') = '/' :: x.data := by
      simp [List.dropWhile_cons]
    rw [htake, hdrop, if_pos rfl, hhome]
    rw [if_neg (by simp)]
    apply String.ext
    simp [strData_append]
  · intro path cwd hne hns habs hfp
    simp only [List.mem_cons, List.not_mem_nil, or_false, not_or] at hfp
    obtain ⟨h1, h2, h3⟩ := hfp
    rw [expand_path, if_neg hne]
    simp only [hns, habs, Bool.false_eq_true, if_false]
    simp only [List.headD_eq_head?_getD] at h1 h2 h3
    simp [h1, h2, h3]

/-- A concrete instance of C6 with home `/home/u` and cwd `/home/u`:
the empty path, `~/x` from an unrelated cwd, and `sub/f`. -/
theorem expand_path_spec_witness :
    rstripSlash ("/home/u" : String) = "/home/u" ∧
    expand_path ⟨"/home/u", fun _ => none, fun _ => none⟩ "" "/home/u" = "/home/u" ∧
    expand_path ⟨"/home/u", fun _ => none, fun _ => none⟩ ("~/" ++ "x") "/elsewhere" =
      "/home/u" ++ "/" ++ "x" ∧
    expand_path ⟨"/home/u", fun _ => none, fun _ => none⟩ "sub/f" "/home/u" =
      joinPath "/home/u" "sub/f" := by
  have h := expand_path_spec ⟨"/home/u", fun _ => none, fun _ => none⟩ (by decide)
  exact ⟨by decide, h.1 "/home/u", h.2.1 "x" "/elsewhere",
    h.2.2 "sub/f" "/home/u" (by decide) (by decide) (by decide) (by decide)⟩

/-! ## C7: write_file -/

theorem parentDir_mem_mkdirChain (d : String) : d ∈ mkdirChain d := by
  simp [mkdirChain]

/-- C7: writing "a" then "b" with append=true to a path not yet present
leaves the file containing "ab"; writing "a" then "b" with append=false
(from any starting file system) leaves it containing "b"; in both cases
both calls succeed and the resolved path's parent directory has been
created. -/
theorem write_file_twice (pe : PathEnv) (cwd : String) (fs : FS) (path : String)
    (habsent : fs.files.lookup (expand_path pe path cwd) = none) :
    ((write_file pe cwd (write_file pe cwd fs path "a" true).2 path "b" true).2.files.lookup
        (expand_path pe path cwd) = some "ab" ∧
     (write_file pe cwd fs path "a" true).1.success = true ∧
     (write_file pe cwd (write_file pe cwd fs path "a" true).2 path "b" true).1.success = true ∧
     parentDir (expand_path pe path cwd) ∈
       (write_file pe cwd (write_file pe cwd fs path "a" true).2 path "b" true).2.dirs) ∧
    (∀ fs' : FS,
     (write_file pe cwd (write_file pe cwd fs' path "a" false).2 path "b" false).2.files.lookup
        (expand_path pe path cwd) = some "b" ∧
     (write_file pe cwd fs' path "a" false).1.success = true ∧
     (write_file pe cwd (write_file pe cwd fs' path "a" false).2 path "b" false).1.success = true ∧
     parentDir (expand_path pe path cwd) ∈
       (write_file pe cwd (write_file pe cwd fs' path "a" false).2 path "b" false).2.dirs) := by
  constructor
  · refine ⟨?_, rfl, rfl, ?_⟩
    · simp [write_file, mkdirParents, List.lookup, habsent]
    · simp [write_file, mkdirParents]
      left
      exact parentDir_mem_mkdirChain _
  · intro fs'
    refine ⟨?_, rfl, rfl, ?_⟩
    · simp [write_file, mkdirParents, List.lookup]
    · simp [write_file, mkdirParents]
      left
      exact parentDir_mem_mkdirChain _

/-- A concrete instance of C7: path `sub/f.txt` against an empty file
system with cwd `/home/u`. -/
theorem write_file_twice_witness :
    (FS.mk [] []).files.lookup
      (expand_path ⟨"/home/u", fun _ => none, fun _ => none⟩ "sub/f.txt" "/home/u") = none ∧
    ((write_file ⟨"/home/u", fun _ => none, fun _ => none⟩ "/home/u"
        (write_file ⟨"/home/u", fun _ => none, fun _ => none⟩ "/home/u"
          (FS.mk [] []) "sub/f.txt" "a" true).2 "sub/f.txt" "b" true).2.files.lookup
        (expand_path ⟨"/home/u", fun _ => none, fun _ => none⟩ "sub/f.txt" "/home/u") = some "ab" ∧
     (write_file ⟨"/home/u", fun _ => none, fun _ => none⟩ "/home/u"
        (write_file ⟨"/home/u", fun _ => none, fun _ => none⟩ "/home/u"
          (FS.mk [] []) "sub/f.txt" "a" false).2 "sub/f.txt" "b" false).2.files.lookup
        (expand_path ⟨"/home/u", fun _ => none, fun _ => none⟩ "sub/f.txt" "/home/u") = some "b") := by
  have h := write_file_twice ⟨"/home/u", fun _ => none, fun _ => none⟩ "/home/u"
    (FS.mk [] []) "sub/f.txt" (by decide)
  exact ⟨by decide, h.1.1, (h.2 (FS.mk [] [])).1⟩

/-! ## C10: read_file truncation -/

theorem splitChar_ne_nil (c : Char) (l : List Char) : splitChar c l ≠ [] := by
  cases l with
  | nil => simp [splitChar]
  | cons x xs =>
    simp only [splitChar]
    split
    · simp
    · split <;> simp

theorem joinChar_splitChar (c : Char) (l : List Char) :
    joinChar c (splitChar c l) = l := by
  induction l with
  | nil => rfl
  | cons x xs ih =>
    rw [splitChar]
    by_cases hx : x = c
    · rw [if_pos hx]
      cases hr : splitChar c xs with
      | nil => exact absurd hr (splitChar_ne_nil c xs)
      | cons h t =>
        rw [hr] at ih
        simp [joinChar, ← ih, hx]
    · rw [if_neg hx]
      cases hr : splitChar c xs with
      | nil => exact absurd hr (splitChar_ne_nil c xs)
      | cons h t =>
        rw [hr] at ih
        cases t with
        | nil => simp_all [joinChar]
        | cons t1 t2 => simp_all [joinChar]

/-- Splitting on a separator and joining with it again is the identity
(so returning the joined lines when nothing was cut reproduces the file
content exactly). -/
theorem pyJoin_pySplit (s : String) (c : Char) : pyJoin c (pySplit s c) = s := by
  apply String.ext
  simp only [pyJoin, pySplit, List.map_map, strData_mk]
  have : (String.data ∘ fun l => (⟨l⟩ : String)) = id := by
    funext l
    rfl
  rw [this, List.map_id]
  exact joinChar_splitChar c s.data

/-- C10: for an existing text file and `max_lines = mx ≥ 1`, the truncation
notice is appended exactly when the file has at least `mx`
newline-separated lines (in particular also when it has exactly `mx` lines
and nothing was omitted), the output otherwise being the whole content;
and `max_lines = 0` is falsy in Python, so it behaves exactly like an
absent `max_lines`. -/
theorem read_file_truncation (pathStr content : String) (mx : Nat) (hmx : 1 ≤ mx) :
    (mx ≤ (pySplit content '\n').length →
      read_file pathStr ⟨true, true, content⟩ (some mx) =
        { success := true,
          output := pyJoin '\n' ((pySplit content '\n').take mx) ++
            "\n... (truncated, showing first " ++ toString mx ++ " lines)" }) ∧
    ((pySplit content '\n').length < mx →
      read_file pathStr ⟨true, true, content⟩ (some mx) =
        { success := true, output := content }) ∧
    read_file pathStr ⟨true, true, content⟩ (some 0) =
      read_file pathStr ⟨true, true, content⟩ none := by
  have hmz : mx ≠ 0 := Nat.one_le_iff_ne_zero.mp hmx
  refine ⟨?_, ?_, rfl⟩
  · intro hlen
    rw [read_file]
    simp only [Bool.not_true, Bool.false_eq_true, if_false, Option.getD_some]
    rw [if_pos hmz]
    rw [if_pos (by rw [List.length_take]; exact Nat.min_eq_left hlen)]
  · intro hlen
    rw [read_file]
    simp only [Bool.not_true, Bool.false_eq_true, if_false, Option.getD_some]
    rw [if_pos hmz]
    rw [List.take_of_length_le (Nat.le_of_lt hlen)]
    rw [if_neg (by omega)]
    rw [pyJoin_pySplit]

/-- A concrete instance of C10 on the three-line file "l1\nl2\nl3":
`max_lines = 2` truncates with the notice, `max_lines = 4` returns the
whole content with no notice, and `max_lines = 0` equals absent
`max_lines`. -/
theorem read_file_truncation_witness :
    (1 ≤ 2 ∧ read_file "/home/u/f" ⟨true, true, "l1\nl2\nl3"⟩ (some 2) =
      { success := true,
        output := pyJoin '\n' ((pySplit "l1\nl2\nl3" '\n').take 2) ++
          "\n... (truncated, showing first " ++ toString 2 ++ " lines)" }) ∧
    (1 ≤ 4 ∧ read_file "/home/u/f" ⟨true, true, "l1\nl2\nl3"⟩ (some 4) =
      { success := true, output := "l1\nl2\nl3" }) ∧
    read_file "/home/u/f" ⟨true, true, "l1\nl2\nl3"⟩ (some 0) =
      read_file "/home/u/f" ⟨true, true, "l1\nl2\nl3"⟩ none := by
  refine ⟨⟨by decide, ?_⟩, ⟨by decide, ?_⟩, ?_⟩
  · exact (read_file_truncation "/home/u/f" "l1\nl2\nl3" 2 (by decide)).1 (by decide)
  · exact (read_file_truncation "/home/u/f" "l1\nl2\nl3" 4 (by decide)).2.1 (by decide)
  · exact (read_file_truncation "/home/u/f" "l1\nl2\nl3" 4 (by decide)).2.2

/-! ## Lemmas about the emitted step sequence -/

theorem getLast?_append_ne_nil {α : Type} (l₁ : List α) {l₂ : List α} (h : l₂ ≠ []) :
    (l₁ ++ l₂).getLast? = l₂.getLast? := by
  rw [List.getLast?_append]
  cases hl : l₂.getLast? with
  | none => exact absurd (List.getLast?_eq_none_iff.mp hl) h
  | some a => rfl

theorem getLast?_cons_cons_ne_nil {α : Type} (a b : α) {l : List α} (h : l ≠ []) :
    (a :: b :: l).getLast? = l.getLast? := by
  rw [List.getLast?_cons_cons]
  cases l with
  | nil => exact absurd rfl h
  | cons x xs => exact List.getLast?_cons_cons

theorem sorted_of_const {l : List Nat} {c : Nat} (h : ∀ a ∈ l, a = c) :
    List.Sorted (fun a b => a ≤ b) l := by
  induction l with
  | nil => exact List.sorted_nil
  | cons x xs ih =>
    rw [List.sorted_cons]
    refine ⟨fun b hb => ?_, ih (fun a ha => h a (List.mem_cons_of_mem x ha))⟩
    rw [h x (List.mem_cons_self x xs), h b (List.mem_cons_of_mem x hb)]

theorem processCalls_step_numbers {σ : Type} (exec : σ → String → ToolArgs → ToolResult × σ)
    (parse : String → Option ToolArgs) (n : Nat) (L : List ToolCall) :
    ∀ (s : σ) (msgs : List Message),
      ∀ st ∈ (processCalls exec parse n s msgs L).1, st.step_number = n := by
  induction L with
  | nil => intro s msgs st hst; simp [processCalls] at hst
  | cons tc rest ih =>
    intro s msgs st hst
    simp only [processCalls] at hst
    by_cases htc : tc.name = "task_complete"
    · rw [if_pos htc] at hst
      simp only [List.mem_cons, List.not_mem_nil, or_false] at hst
      rcases hst with h | h | h <;> rw [h]
    · rw [if_neg htc] at hst
      simp only [List.mem_cons] at hst
      rcases hst with h | h | h
      · rw [h]
      · rw [h]
      · exact ih _ _ st h

theorem processCalls_ne_nil {σ : Type} (exec : σ → String → ToolArgs → ToolResult × σ)
    (parse : String → Option ToolArgs) (n : Nat) (L : List ToolCall)
    (s : σ) (msgs : List Message) (h : L ≠ []) :
    (processCalls exec parse n s msgs L).1 ≠ [] := by
  cases L with
  | nil => exact absurd rfl h
  | cons tc rest =>
    simp only [processCalls]
    by_cases htc : tc.name = "task_complete"
    · rw [if_pos htc]
      simp
    · rw [if_neg htc]
      simp

theorem processCalls_fired_last {σ : Type} (exec : σ → String → ToolArgs → ToolResult × σ)
    (parse : String → Option ToolArgs) (n : Nat) (L : List ToolCall) :
    ∀ (s : σ) (msgs : List Message), (processCalls exec parse n s msgs L).2.2.2 = true →
      ∃ lst, (processCalls exec parse n s msgs L).1.getLast? = some lst ∧
        lst.type = "complete" := by
  induction L with
  | nil => intro s msgs hf; simp [processCalls] at hf
  | cons tc rest ih =>
    intro s msgs hf
    simp only [processCalls] at hf ⊢
    by_cases htc : tc.name = "task_complete"
    · rw [if_pos htc] at hf ⊢
      exact ⟨_, rfl, rfl⟩
    · rw [if_neg htc] at hf ⊢
      obtain ⟨lst, hlast, hty⟩ := ih _ _ hf
      refine ⟨lst, ?_, hty⟩
      have hne : (processCalls exec parse n
          (exec s tc.name ((parse tc.argsRaw).getD [])).2
          (msgs ++ [{ role := "tool",
                      content := resultContent (exec s tc.name ((parse tc.argsRaw).getD [])).1,
                      tool_call_id := some tc.id }]) rest).1 ≠ [] := by
        intro hnil
        rw [hnil] at hlast
        simp at hlast
      rw [getLast?_cons_cons_ne_nil _ _ hne]
      exact hlast

theorem processCalls_not_fired {σ : Type} (exec : σ → String → ToolArgs → ToolResult × σ)
    (parse : String → Option ToolArgs) (n : Nat) (L : List ToolCall) :
    ∀ (s : σ) (msgs : List Message), (∀ tc ∈ L, tc.name ≠ "task_complete") →
      (processCalls exec parse n s msgs L).2.2.2 = false := by
  induction L with
  | nil => intro s msgs _; simp [processCalls]
  | cons tc rest ih =>
    intro s msgs h
    simp only [processCalls]
    rw [if_neg (h tc (List.mem_cons_self tc rest))]
    exact ih _ _ (fun c hc => h c (List.mem_cons_of_mem tc hc))

theorem getLast?_cons_ne_nil {α : Type} (a : α) {l : List α} (h : l ≠ []) :
    (a :: l).getLast? = l.getLast? := by
  cases l with
  | nil => exact absurd rfl h
  | cons x xs => exact List.getLast?_cons_cons

/-- Core invariant of the loop body: the emitted list is non-empty, every
step number lies between the entry step counter and the counter plus the
remaining fuel, the step numbers are non-decreasing, and the last emitted
step is of kind complete or error. -/
theorem loopAux_spec {σ : Type} (planner : Planner)
    (exec : σ → String → ToolArgs → ToolResult × σ)
    (parse : String → Option ToolArgs) (max_steps : Nat) :
    ∀ (fuel n ctr : Nat) (msgs : List Message) (s : σ),
      (loopAux planner exec parse max_steps fuel n ctr msgs s ≠ []) ∧
      (∀ st ∈ loopAux planner exec parse max_steps fuel n ctr msgs s,
        n ≤ st.step_number ∧ st.step_number ≤ n + fuel) ∧
      List.Sorted (fun a b => a ≤ b)
        ((loopAux planner exec parse max_steps fuel n ctr msgs s).map AgentStep.step_number) ∧
      (∃ lst, (loopAux planner exec parse max_steps fuel n ctr msgs s).getLast? = some lst ∧
        (lst.type = "complete" ∨ lst.type = "error")) := by
  intro fuel
  induction fuel with
  | zero =>
    intro n ctr msgs s
    refine ⟨by simp [loopAux], ?_, by simp [loopAux], ⟨_, rfl, Or.inr rfl⟩⟩
    intro st hst
    simp [loopAux] at hst
    rw [hst]
    exact ⟨Nat.le_refl n, Nat.le_add_right n 0⟩
  | succ fuel ih =>
    intro n ctr msgs s
    rw [loopAux]
    cases hp : planner msgs with
    | exn m =>
      refine ⟨by simp, ?_, by simp, ⟨_, rfl, Or.inr rfl⟩⟩
      intro st hst
      simp at hst
      subst hst
      dsimp only
      omega
    | ok resp =>
      dsimp only
      by_cases htc : resp.tool_calls = []
      · -- text-only branch
        rw [if_neg (not_not_intro htc)]
        by_cases hc : resp.content = ""
        · rw [if_neg (not_not_intro hc)]
          refine ⟨by simp, ?_, by simp, ⟨_, rfl, Or.inr rfl⟩⟩
          intro st hst
          simp at hst
          subst hst
          dsimp only
          omega
        · rw [if_pos hc]
          by_cases hdone : (isCompletePhrase resp.content || decide (ctr + 1 ≥ 2)) = true
          · rw [if_pos hdone]
            refine ⟨by simp, ?_, by simp, ⟨_, rfl, Or.inl rfl⟩⟩
            intro st hst
            simp at hst
            subst hst
            dsimp only
            omega
          · rw [if_neg hdone]
            obtain ⟨ihne, ihbounds, ihsorted, ihlast⟩ :=
              ih (n + 1) (ctr + 1) (msgs ++ [{ role := "assistant", content := resp.content }]) s
            refine ⟨by simp, ?_, ?_, ?_⟩
            · intro st hst
              rcases List.mem_cons.mp hst with h | h
              · subst h
                dsimp only
                omega
              · obtain ⟨h1, h2⟩ := ihbounds st h
                exact ⟨by omega, by omega⟩
            · rw [List.map_cons, List.sorted_cons]
              refine ⟨?_, ihsorted⟩
              intro b hb
              simp only [List.mem_map] at hb
              obtain ⟨st, hst, hstep⟩ := hb
              obtain ⟨h1, _⟩ := ihbounds st hst
              dsimp only
              omega
            · obtain ⟨lst, hlast, hty⟩ := ihlast
              exact ⟨lst, by rw [getLast?_cons_ne_nil _ ihne]; exact hlast, hty⟩
      · -- tool-call branch
        rw [if_pos htc]
        have hpre : ∀ st ∈ (if resp.content ≠ "" then
            [({ step_number := n + 1, type := "thinking",
                content := resp.content } : AgentStep)] else []), st.step_number = n + 1 := by
          intro st hst
          split at hst
          · simp at hst
            rw [hst]
          · simp at hst
        have hPCsteps := processCalls_step_numbers exec parse (n + 1) resp.tool_calls s
          (msgs ++ [{ role := "assistant", content := resp.content,
                      tool_calls := resp.tool_calls }])
        have hPCne := processCalls_ne_nil exec parse (n + 1) resp.tool_calls s
          (msgs ++ [{ role := "assistant", content := resp.content,
                      tool_calls := resp.tool_calls }]) htc
        by_cases hf : (processCalls exec parse (n + 1) s
            (msgs ++ [{ role := "assistant", content := resp.content,
                        tool_calls := resp.tool_calls }]) resp.tool_calls).2.2.2 = true
        · rw [if_pos hf]
          refine ⟨?_, ?_, ?_, ?_⟩
          · intro hnil
            rw [List.append_eq_nil] at hnil
            exact hPCne hnil.2
          · intro st hst
            rcases List.mem_append.mp hst with h | h
            · rw [hpre st h]
              omega
            · rw [hPCsteps st h]
              omega
          · apply sorted_of_const (c := n + 1)
            intro a ha
            simp only [List.mem_map] at ha
            obtain ⟨st, hst, hstep⟩ := ha
            rcases List.mem_append.mp hst with h | h
            · rw [← hstep]; exact hpre st h
            · rw [← hstep]; exact hPCsteps st h
          · obtain ⟨lst, hlast, hty⟩ := processCalls_fired_last exec parse (n + 1)
              resp.tool_calls _ _ hf
            exact ⟨lst, by rw [getLast?_append_ne_nil _ hPCne]; exact hlast, Or.inl hty⟩
        · rw [if_neg hf]
          obtain ⟨ihne, ihbounds, ihsorted, ihlast⟩ :=
            ih (n + 1) 0
              (processCalls exec parse (n + 1) s
                (msgs ++ [{ role := "assistant", content := resp.content,
                            tool_calls := resp.tool_calls }]) resp.tool_calls).2.1
              (processCalls exec parse (n + 1) s
                (msgs ++ [{ role := "assistant", content := resp.content,
                            tool_calls := resp.tool_calls }]) resp.tool_calls).2.2.1
          refine ⟨?_, ?_, ?_, ?_⟩
          · intro hnil
            rw [List.append_eq_nil] at hnil
            exact ihne hnil.2
          · intro st hst
            rcases List.mem_append.mp hst with h | h
            · rcases List.mem_append.mp h with h2 | h2
              · rw [hpre st h2]
                omega
              · rw [hPCsteps st h2]
                omega
            · obtain ⟨h1, h2⟩ := ihbounds st h
              exact ⟨by omega, by omega⟩
          · rw [List.map_append]
            refine List.pairwise_append.mpr ⟨?_, ihsorted, ?_⟩
            · apply sorted_of_const (c := n + 1)
              intro a ha
              simp only [List.mem_map] at ha
              obtain ⟨st, hst, hstep⟩ := ha
              rcases List.mem_append.mp hst with h | h
              · rw [← hstep]; exact hpre st h
              · rw [← hstep]; exact hPCsteps st h
            · intro a ha b hb
              simp only [List.mem_map] at ha hb
              obtain ⟨st, hst, hstep⟩ := ha
              obtain ⟨st2, hst2, hstep2⟩ := hb
              obtain ⟨hb1, _⟩ := ihbounds st2 hst2
              have : st.step_number = n + 1 := by
                rcases List.mem_append.mp hst with h | h
                · exact hpre st h
                · exact hPCsteps st h
              omega
          · obtain ⟨lst, hlast, hty⟩ := ihlast
            exact ⟨lst, by rw [getLast?_append_ne_nil _ ihne]; exact hlast, hty⟩

theorem processCalls_cons_head {σ : Type} (exec : σ → String → ToolArgs → ToolResult × σ)
    (parse : String → Option ToolArgs) (n : Nat) (tc : ToolCall) (rest : List ToolCall)
    (s : σ) (msgs : List Message) :
    ∃ h t, (processCalls exec parse n s msgs (tc :: rest)).1 = h :: t ∧
      h.step_number = n := by
  simp only [processCalls]
  by_cases htc : tc.name = "task_complete"
  · rw [if_pos htc]
    exact ⟨_, _, rfl, rfl⟩
  · rw [if_neg htc]
    exact ⟨_, _, rfl, rfl⟩

/-- With fuel remaining, the first step emitted by an iteration carries the
incremented step counter. -/
theorem loopAux_head_step_number {σ : Type} (planner : Planner)
    (exec : σ → String → ToolArgs → ToolResult × σ)
    (parse : String → Option ToolArgs) (max_steps fuel n ctr : Nat)
    (msgs : List Message) (s : σ) :
    ∃ h t, loopAux planner exec parse max_steps (fuel + 1) n ctr msgs s = h :: t ∧
      h.step_number = n + 1 := by
  rw [loopAux]
  cases hp : planner msgs with
  | exn m => exact ⟨_, _, rfl, rfl⟩
  | ok resp =>
    dsimp only
    by_cases htc : resp.tool_calls = []
    · rw [if_neg (not_not_intro htc)]
      by_cases hc : resp.content = ""
      · rw [if_neg (not_not_intro hc)]
        exact ⟨_, _, rfl, rfl⟩
      · rw [if_pos hc]
        by_cases hdone : (isCompletePhrase resp.content || decide (ctr + 1 ≥ 2)) = true
        · rw [if_pos hdone]
          exact ⟨_, _, rfl, rfl⟩
        · rw [if_neg hdone]
          exact ⟨_, _, rfl, rfl⟩
    · rw [if_pos htc]
      cases hL : resp.tool_calls with
      | nil => exact absurd hL htc
      | cons tc rest =>
        obtain ⟨h, t, hpc, hstep⟩ := processCalls_cons_head exec parse (n + 1) tc rest s
          (msgs ++ [{ role := "assistant", content := resp.content,
                      tool_calls := tc :: rest }])
        by_cases hf : (processCalls exec parse (n + 1) s
            (msgs ++ [{ role := "assistant", content := resp.content,
                        tool_calls := tc :: rest }]) (tc :: rest)).2.2.2 = true
        · rw [if_pos hf, hpc]
          by_cases hc : resp.content = ""
          · rw [if_neg (not_not_intro hc)]
            exact ⟨h, t, rfl, hstep⟩
          · rw [if_pos hc]
            exact ⟨_, _, rfl, rfl⟩
        · rw [if_neg hf, hpc]
          by_cases hc : resp.content = ""
          · rw [if_neg (not_not_intro hc)]
            exact ⟨h, t ++ loopAux planner exec parse max_steps fuel (n + 1) 0
              (processCalls exec parse (n + 1) s
                (msgs ++ [{ role := "assistant", content := resp.content,
                            tool_calls := tc :: rest }]) (tc :: rest)).2.1
              (processCalls exec parse (n + 1) s
                (msgs ++ [{ role := "assistant", content := resp.content,
                            tool_calls := tc :: rest }]) (tc :: rest)).2.2.1,
              by simp, hstep⟩
          · rw [if_pos hc]
            exact ⟨_, _, rfl, rfl⟩

/-- C1: for every planner behaviour, tool executor and `max_steps ≥ 1`,
the emitted step sequence is a finite non-empty list (finiteness is
inherent: the embedding is total and fuel-bounded), its step numbers start
at 1 and are non-decreasing, its final element has kind complete or error,
and — the sequence being a list ending at that element — no step follows
it. -/
theorem run_agent_loop_invariants {σ : Type} (planner : Planner)
    (exec : σ → String → ToolArgs → ToolResult × σ)
    (parse : String → Option ToolArgs) (os_instructions task context : String)
    (max_steps : Nat) (s₀ : σ) (hms : 1 ≤ max_steps) :
    run_agent_loop planner exec parse os_instructions task context max_steps s₀ ≠ [] ∧
    (run_agent_loop planner exec parse os_instructions task context max_steps s₀).head?.map
      AgentStep.step_number = some 1 ∧
    List.Sorted (fun a b => a ≤ b)
      ((run_agent_loop planner exec parse os_instructions task context max_steps s₀).map
        AgentStep.step_number) ∧
    ∃ lst, (run_agent_loop planner exec parse os_instructions task context
        max_steps s₀).getLast? = some lst ∧
      (lst.type = "complete" ∨ lst.type = "error") := by
  obtain ⟨m, rfl⟩ : ∃ m, max_steps = m + 1 := ⟨max_steps - 1, by omega⟩
  rw [run_agent_loop]
  obtain ⟨hne, _, hsorted, hlast⟩ := loopAux_spec planner exec parse (m + 1) (m + 1) 0 0
    ([{ role := "system", content := get_system_prompt os_instructions },
      { role := "user", content := if context ≠ "" then task ++ "\n\n" ++ context else task }]) s₀
  obtain ⟨h, t, hht, hstep⟩ := loopAux_head_step_number planner exec parse (m + 1) m 0 0
    ([{ role := "system", content := get_system_prompt os_instructions },
      { role := "user", content := if context ≠ "" then task ++ "\n\n" ++ context else task }]) s₀
  refine ⟨hne, ?_, hsorted, hlast⟩
  rw [hht]
  simp [hstep]

/-- A concrete instance of C1: a planner that immediately returns an empty
response, with `max_steps = 1`. -/
theorem run_agent_loop_invariants_witness :
    1 ≤ 1 ∧
    (run_agent_loop (σ := Unit) (fun _ => .ok { content := "", tool_calls := [] })
        (fun s _ _ => ({ success := true, output := "" }, s)) (fun _ => none)
        "" "task" "" 1 () ≠ [] ∧
     (run_agent_loop (σ := Unit) (fun _ => .ok { content := "", tool_calls := [] })
        (fun s _ _ => ({ success := true, output := "" }, s)) (fun _ => none)
        "" "task" "" 1 ()).head?.map AgentStep.step_number = some 1 ∧
     List.Sorted (fun a b => a ≤ b)
       ((run_agent_loop (σ := Unit) (fun _ => .ok { content := "", tool_calls := [] })
          (fun s _ _ => ({ success := true, output := "" }, s)) (fun _ => none)
          "" "task" "" 1 ()).map AgentStep.step_number) ∧
     ∃ lst, (run_agent_loop (σ := Unit) (fun _ => .ok { content := "", tool_calls := [] })
          (fun s _ _ => ({ success := true, output := "" }, s)) (fun _ => none)
          "" "task" "" 1 ()).getLast? = some lst ∧
       (lst.type = "complete" ∨ lst.type = "error")) :=
  ⟨Nat.le_refl 1,
   run_agent_loop_invariants (σ := Unit) (fun _ => .ok { content := "", tool_calls := [] })
     (fun s _ _ => ({ success := true, output := "" }, s)) (fun _ => none)
     "" "task" "" 1 () (Nat.le_refl 1)⟩

/-! ## C2: task_complete short-circuits the turn -/

/-- Splitting a tool-call list at its first `task_complete`: the calls
before it are dispatched exactly as they would be on their own (same
steps, same messages, same final tool state, not yet fired), and the full
list's emitted steps are those steps followed immediately by the
`tool_call` / `tool_result` / `complete` triple for `task_complete`, with
the fired flag set — the calls after `task_complete` contribute nothing. -/
theorem processCalls_task_complete_split {σ : Type}
    (exec : σ → String → ToolArgs → ToolResult × σ)
    (parse : String → Option ToolArgs) (n : Nat) (tc : ToolCall)
    (htc : tc.name = "task_complete") (L₂ : List ToolCall) :
    ∀ (L₁ : List ToolCall) (s : σ) (msgs : List Message),
      (∀ c ∈ L₁, c.name ≠ "task_complete") →
      ∃ steps₁ m₁ s₁,
        processCalls exec parse n s msgs L₁ = (steps₁, m₁, s₁, false) ∧
        (processCalls exec parse n s msgs (L₁ ++ tc :: L₂)).1 =
          steps₁ ++
            [{ step_number := n, type := "tool_call", content := "Calling " ++ tc.name,
               tool_name := some tc.name, tool_args := some ((parse tc.argsRaw).getD []) },
             { step_number := n, type := "tool_result",
               content := resultContent (exec s₁ tc.name ((parse tc.argsRaw).getD [])).1,
               tool_name := some tc.name,
               tool_result := some (exec s₁ tc.name ((parse tc.argsRaw).getD [])).1 },
             { step_number := n, type := "complete",
               content := (exec s₁ tc.name ((parse tc.argsRaw).getD [])).1.output }] ∧
        (processCalls exec parse n s msgs (L₁ ++ tc :: L₂)).2.2.2 = true := by
  intro L₁
  induction L₁ with
  | nil =>
    intro s msgs _
    refine ⟨[], msgs, s, rfl, ?_, ?_⟩
    · simp only [List.nil_append, processCalls]
      rw [if_pos htc]
    · simp only [List.nil_append, processCalls]
      rw [if_pos htc]
  | cons c L₁ ih =>
    intro s msgs hL₁
    have hc : c.name ≠ "task_complete" := hL₁ c (List.mem_cons_self c L₁)
    obtain ⟨steps₁, m₁, s₁, heq, hsteps, hfired⟩ :=
      ih (exec s c.name ((parse c.argsRaw).getD [])).2
        (msgs ++ [{ role := "tool",
                    content := resultContent (exec s c.name ((parse c.argsRaw).getD [])).1,
                    tool_call_id := some c.id }])
        (fun x hx => hL₁ x (List.mem_cons_of_mem c hx))
    refine ⟨{ step_number := n, type := "tool_call", content := "Calling " ++ c.name,
              tool_name := some c.name, tool_args := some ((parse c.argsRaw).getD []) } ::
            { step_number := n, type := "tool_result",
              content := resultContent (exec s c.name ((parse c.argsRaw).getD [])).1,
              tool_name := some c.name,
              tool_result := some (exec s c.name ((parse c.argsRaw).getD [])).1 } :: steps₁,
      m₁, s₁, ?_, ?_, ?_⟩
    · simp only [processCalls]
      rw [if_neg hc, heq]
    · simp only [List.cons_append, processCalls]
      rw [if_neg hc]
      dsimp only
      simp only [List.append_eq]
      rw [hsteps]
    · simp only [List.cons_append, processCalls]
      rw [if_neg hc]
      dsimp only
      exact hfired

/-- C2: whenever the planner's turn proposes `L₁ ++ task_complete :: L₂`
(with no earlier `task_complete` in `L₁`), the loop emits the optional
thinking step, the steps dispatching `L₁`, then the `tool_call` and
`tool_result` steps of `task_complete`, then immediately a `complete` step
carrying `task_complete`'s output — and that is the entire remaining
output of the run: the right-hand side does not depend on `L₂` (which is
universally quantified), so no invocation after `task_complete` is ever
dispatched. -/
theorem task_complete_short_circuits {σ : Type} (planner : Planner)
    (exec : σ → String → ToolArgs → ToolResult × σ)
    (parse : String → Option ToolArgs) (max_steps fuel n ctr : Nat)
    (msgs : List Message) (s : σ) (resp : PlannerResponse)
    (L₁ L₂ : List ToolCall) (tc : ToolCall)
    (hp : planner msgs = .ok resp)
    (hcalls : resp.tool_calls = L₁ ++ tc :: L₂)
    (htc : tc.name = "task_complete")
    (hL₁ : ∀ c ∈ L₁, c.name ≠ "task_complete") :
    ∃ steps₁ m₁ s₁,
      processCalls exec parse (n + 1) s
        (msgs ++ [{ role := "assistant", content := resp.content,
                    tool_calls := L₁ ++ tc :: L₂ }]) L₁ = (steps₁, m₁, s₁, false) ∧
      loopAux planner exec parse max_steps (fuel + 1) n ctr msgs s =
        (if resp.content ≠ "" then
          [({ step_number := n + 1, type := "thinking", content := resp.content } : AgentStep)]
         else []) ++ steps₁ ++
        [{ step_number := n + 1, type := "tool_call", content := "Calling " ++ tc.name,
           tool_name := some tc.name, tool_args := some ((parse tc.argsRaw).getD []) },
         { step_number := n + 1, type := "tool_result",
           content := resultContent (exec s₁ tc.name ((parse tc.argsRaw).getD [])).1,
           tool_name := some tc.name,
           tool_result := some (exec s₁ tc.name ((parse tc.argsRaw).getD [])).1 },
         { step_number := n + 1, type := "complete",
           content := (exec s₁ tc.name ((parse tc.argsRaw).getD [])).1.output }] := by
  obtain ⟨steps₁, m₁, s₁, heq, hsteps, hfired⟩ :=
    processCalls_task_complete_split exec parse (n + 1) tc htc L₂ L₁ s
      (msgs ++ [{ role := "assistant", content := resp.content,
                  tool_calls := L₁ ++ tc :: L₂ }]) hL₁
  refine ⟨steps₁, m₁, s₁, heq, ?_⟩
  rw [loopAux, hp]
  dsimp only
  rw [hcalls]
  rw [if_pos (by simp : L₁ ++ tc :: L₂ ≠ [])]
  rw [if_pos hfired]
  rw [hsteps]
  simp [List.append_assoc]

/-- A concrete instance of C2: a turn proposing `run_command`,
`task_complete`, `write_file` in that order. -/
theorem task_complete_short_circuits_witness :
    ∃ steps₁ m₁ s₁,
      processCalls (σ := Unit) (fun s _ _ => ({ success := true, output := "OUT" }, s))
          (fun _ => none) (0 + 1) ()
          (([] : List Message) ++
            [{ role := "assistant", content := "",
               tool_calls := [(⟨"1", "run_command", ""⟩ : ToolCall)] ++
                 (⟨"2", "task_complete", ""⟩ : ToolCall) ::
                   [(⟨"3", "write_file", ""⟩ : ToolCall)] }])
          [⟨"1", "run_command", ""⟩] = (steps₁, m₁, s₁, false) ∧
      loopAux (fun _ => PlannerTurn.ok ⟨"", [⟨"1", "run_command", ""⟩,
            ⟨"2", "task_complete", ""⟩, ⟨"3", "write_file", ""⟩]⟩)
          (fun s _ _ => ({ success := true, output := "OUT" }, s)) (fun _ => none)
          5 (4 + 1) 0 0 [] () =
        (if ("" : String) ≠ "" then
          [({ step_number := 0 + 1, type := "thinking", content := "" } : AgentStep)]
         else []) ++ steps₁ ++
        [{ step_number := 0 + 1, type := "tool_call",
           content := "Calling " ++ (⟨"2", "task_complete", ""⟩ : ToolCall).name,
           tool_name := some (⟨"2", "task_complete", ""⟩ : ToolCall).name,
           tool_args := some (((fun _ => (none : Option ToolArgs))
             (⟨"2", "task_complete", ""⟩ : ToolCall).argsRaw).getD []) },
         { step_number := 0 + 1, type := "tool_result",
           content := resultContent ((fun (s : Unit) (_ : String) (_ : ToolArgs) =>
             (({ success := true, output := "OUT" } : ToolResult), s)) s₁
             (⟨"2", "task_complete", ""⟩ : ToolCall).name
             (((fun _ => (none : Option ToolArgs))
               (⟨"2", "task_complete", ""⟩ : ToolCall).argsRaw).getD [])).1,
           tool_name := some (⟨"2", "task_complete", ""⟩ : ToolCall).name,
           tool_result := some ((fun (s : Unit) (_ : String) (_ : ToolArgs) =>
             (({ success := true, output := "OUT" } : ToolResult), s)) s₁
             (⟨"2", "task_complete", ""⟩ : ToolCall).name
             (((fun _ => (none : Option ToolArgs))
               (⟨"2", "task_complete", ""⟩ : ToolCall).argsRaw).getD [])).1 },
         { step_number := 0 + 1, type := "complete",
           content := ((fun (s : Unit) (_ : String) (_ : ToolArgs) =>
             (({ success := true, output := "OUT" } : ToolResult), s)) s₁
             (⟨"2", "task_complete", ""⟩ : ToolCall).name
             (((fun _ => (none : Option ToolArgs))
               (⟨"2", "task_complete", ""⟩ : ToolCall).argsRaw).getD [])).1.output }] :=
  task_complete_short_circuits (σ := Unit)
    (fun _ => PlannerTurn.ok ⟨"", [⟨"1", "run_command", ""⟩,
      ⟨"2", "task_complete", ""⟩, ⟨"3", "write_file", ""⟩]⟩)
    (fun s _ _ => ({ success := true, output := "OUT" }, s)) (fun _ => none)
    5 4 0 0 [] ()
    ⟨"", [⟨"1", "run_command", ""⟩, ⟨"2", "task_complete", ""⟩, ⟨"3", "write_file", ""⟩]⟩
    [⟨"1", "run_command", ""⟩] [⟨"3", "write_file", ""⟩] ⟨"2", "task_complete", ""⟩
    rfl rfl rfl (by decide)

/-! ## C8 and C9: text-response cap and step budget -/

/-- C8: for a planner that only ever returns non-empty text responses with
no tool calls and no completion phrase (and a step budget of at least 2,
without which the budget error would fire first), the run is exactly a
`thinking` step at step 1 followed by a terminating `complete` step at
step 2; and the consecutive-text-response counter is reset by any turn
containing tool calls, in the sense that the loop's output after such a
turn is independent of the incoming counter value. -/
theorem text_only_responses_cap {σ : Type} (planner : Planner)
    (exec : σ → String → ToolArgs → ToolResult × σ)
    (parse : String → Option ToolArgs) (os_instructions task context : String)
    (max_steps : Nat) (s₀ : σ)
    (hplanner : ∀ msgs, ∃ c, planner msgs = .ok ⟨c, []⟩ ∧ c ≠ "" ∧
      isCompletePhrase c = false)
    (hms : 2 ≤ max_steps) :
    (∃ c₁ c₂, run_agent_loop planner exec parse os_instructions task context max_steps s₀ =
      [{ step_number := 1, type := "thinking", content := c₁ },
       { step_number := 2, type := "complete", content := c₂ }]) ∧
    (∀ {σ2 : Type} (p2 : Planner) (e2 : σ2 → String → ToolArgs → ToolResult × σ2)
      (pa2 : String → Option ToolArgs) (ms2 fuel n ctr ctr' : Nat)
      (msgs : List Message) (s : σ2) (resp : PlannerResponse),
      p2 msgs = .ok resp → resp.tool_calls ≠ [] →
      loopAux p2 e2 pa2 ms2 (fuel + 1) n ctr msgs s =
        loopAux p2 e2 pa2 ms2 (fuel + 1) n ctr' msgs s) := by
  constructor
  · obtain ⟨m, rfl⟩ : ∃ m, max_steps = m + 2 := ⟨max_steps - 2, by omega⟩
    obtain ⟨c₁, hp1, hne1, hph1⟩ := hplanner
      [{ role := "system", content := get_system_prompt os_instructions },
       { role := "user", content := if context ≠ "" then task ++ "\n\n" ++ context else task }]
    obtain ⟨c₂, hp2, hne2, hph2⟩ := hplanner
      ([{ role := "system", content := get_system_prompt os_instructions },
        { role := "user", content := if context ≠ "" then task ++ "\n\n" ++ context else task }] ++
       [{ role := "assistant", content := c₁ }])
    refine ⟨c₁, c₂, ?_⟩
    rw [run_agent_loop]
    have hm2 : m + 2 = (m + 1) + 1 := rfl
    rw [hm2, loopAux, hp1]
    dsimp only
    rw [if_neg (not_not_intro rfl)]
    rw [if_pos hne1]
    rw [if_neg (by simp [hph1] : ¬((isCompletePhrase c₁ || decide (0 + 1 ≥ 2)) = true))]
    rw [loopAux, hp2]
    dsimp only
    rw [if_neg (not_not_intro rfl)]
    rw [if_pos hne2]
    rw [if_pos (by simp : (isCompletePhrase c₂ || decide (1 + 1 ≥ 2)) = true)]
  · intro σ2 p2 e2 pa2 ms2 fuel n ctr ctr' msgs s resp hp2 htc2
    rw [loopAux, loopAux, hp2]
    dsimp only
    rw [if_pos htc2, if_pos htc2]

/-- Under a planner that always proposes tool calls and never
`task_complete`, every remaining-fuel segment of the loop ends in the
budget-exhaustion error step. -/
theorem loopAux_budget {σ : Type} (planner : Planner)
    (exec : σ → String → ToolArgs → ToolResult × σ)
    (parse : String → Option ToolArgs) (max_steps : Nat)
    (hplanner : ∀ msgs, ∃ resp, planner msgs = .ok resp ∧ resp.tool_calls ≠ [] ∧
      ∀ c ∈ resp.tool_calls, c.name ≠ "task_complete") :
    ∀ (fuel n ctr : Nat) (msgs : List Message) (s : σ),
      ∃ pre, loopAux planner exec parse max_steps fuel n ctr msgs s =
        pre ++ [{ step_number := n + fuel, type := "error",
                  content := maxStepsMessage max_steps }] := by
  intro fuel
  induction fuel with
  | zero =>
    intro n ctr msgs s
    exact ⟨[], by simp [loopAux]⟩
  | succ fuel ih =>
    intro n ctr msgs s
    obtain ⟨resp, hp, htc, hnotc⟩ := hplanner msgs
    rw [loopAux, hp]
    dsimp only
    rw [if_pos htc]
    have hfired := processCalls_not_fired exec parse (n + 1) resp.tool_calls s
      (msgs ++ [{ role := "assistant", content := resp.content,
                  tool_calls := resp.tool_calls }]) hnotc
    rw [if_neg (by rw [hfired]; simp)]
    obtain ⟨pre, hpre⟩ := ih (n + 1) 0
      (processCalls exec parse (n + 1) s
        (msgs ++ [{ role := "assistant", content := resp.content,
                    tool_calls := resp.tool_calls }]) resp.tool_calls).2.1
      (processCalls exec parse (n + 1) s
        (msgs ++ [{ role := "assistant", content := resp.content,
                    tool_calls := resp.tool_calls }]) resp.tool_calls).2.2.1
    have hn : n + 1 + fuel = n + (fuel + 1) := by omega
    rw [hn] at hpre
    refine ⟨(if resp.content ≠ "" then
        [({ step_number := n + 1, type := "thinking", content := resp.content } : AgentStep)]
      else []) ++
      (processCalls exec parse (n + 1) s
        (msgs ++ [{ role := "assistant", content := resp.content,
                    tool_calls := resp.tool_calls }]) resp.tool_calls).1 ++ pre, ?_⟩
    rw [hpre]
    simp [List.append_assoc]

/-- C9 (amended): for every `max_steps ≥ 1` and a planner that never
raises, never proposes `task_complete`, and proposes at least one tool
invocation on every turn, the run ends with a final `error` step citing
the maximum step count and carrying `step_number = max_steps`, and no step
of the run exceeds `max_steps` (the loop performs at most `max_steps`
planner iterations). -/
theorem max_steps_budget_exhaustion {σ : Type} (planner : Planner)
    (exec : σ → String → ToolArgs → ToolResult × σ)
    (parse : String → Option ToolArgs) (os_instructions task context : String)
    (max_steps : Nat) (s₀ : σ) (_hms : 1 ≤ max_steps)
    (hplanner : ∀ msgs, ∃ resp, planner msgs = .ok resp ∧ resp.tool_calls ≠ [] ∧
      ∀ c ∈ resp.tool_calls, c.name ≠ "task_complete") :
    (∃ pre, run_agent_loop planner exec parse os_instructions task context max_steps s₀ =
      pre ++ [{ step_number := max_steps, type := "error",
                content := maxStepsMessage max_steps }]) ∧
    ∀ st ∈ run_agent_loop planner exec parse os_instructions task context max_steps s₀,
      st.step_number ≤ max_steps := by
  constructor
  · rw [run_agent_loop]
    obtain ⟨pre, hpre⟩ := loopAux_budget planner exec parse max_steps hplanner
      max_steps 0 0
      [{ role := "system", content := get_system_prompt os_instructions },
       { role := "user", content := if context ≠ "" then task ++ "\n\n" ++ context else task }] s₀
    rw [Nat.zero_add] at hpre
    exact ⟨pre, hpre⟩
  · intro st hst
    rw [run_agent_loop] at hst
    obtain ⟨_, hbounds, _, _⟩ := loopAux_spec planner exec parse max_steps max_steps 0 0
      [{ role := "system", content := get_system_prompt os_instructions },
       { role := "user", content := if context ≠ "" then task ++ "\n\n" ++ context else task }] s₀
    have := (hbounds st hst).2
    omega

/-- Counterexample to C9 as stated: the planner that always answers with
the non-empty text "hmm" NEVER proposes `task_complete`, never emits a
completion phrase (`isCompletePhrase "hmm" = false`) and never emits an
empty response, yet with `max_steps = 3` the run terminates at step 2 with
a `complete` step (the consecutive-text-response cap fires first), not
with an `error` step at step 3 citing the maximum number of steps. -/
theorem max_steps_claim_counterexample :
    (run_agent_loop (σ := Unit) (fun _ => PlannerTurn.ok ⟨"hmm", []⟩)
      (fun s _ _ => ({ success := true, output := "" }, s)) (fun _ => none)
      "" "t" "" 3 ()).map (fun st => (st.step_number, st.type)) =
      [(1, "thinking"), (2, "complete")] ∧
    ((run_agent_loop (σ := Unit) (fun _ => PlannerTurn.ok ⟨"hmm", []⟩)
      (fun s _ _ => ({ success := true, output := "" }, s)) (fun _ => none)
      "" "t" "" 3 ()).getLast?).map (fun st => (st.step_number, st.type)) ≠
      some (3, "error") ∧
    isCompletePhrase "hmm" = false ∧ ("hmm" : String) ≠ "" := by
  refine ⟨by decide, by decide, by decide, by decide⟩

/-- A concrete instance of the amended C9: a planner that always proposes
one `run_command` call, with `max_steps = 3`. -/
theorem max_steps_budget_exhaustion_witness :
    1 ≤ 3 ∧
    ((∃ pre, run_agent_loop (σ := Unit)
        (fun _ => PlannerTurn.ok ⟨"", [⟨"1", "run_command", ""⟩]⟩)
        (fun s _ _ => ({ success := true, output := "" }, s)) (fun _ => none)
        "" "t" "" 3 () =
      pre ++ [{ step_number := 3, type := "error", content := maxStepsMessage 3 }]) ∧
    ∀ st ∈ run_agent_loop (σ := Unit)
        (fun _ => PlannerTurn.ok ⟨"", [⟨"1", "run_command", ""⟩]⟩)
        (fun s _ _ => ({ success := true, output := "" }, s)) (fun _ => none)
        "" "t" "" 3 (),
      st.step_number ≤ 3) :=
  ⟨by decide,
   max_steps_budget_exhaustion (σ := Unit)
     (fun _ => PlannerTurn.ok ⟨"", [⟨"1", "run_command", ""⟩]⟩)
     (fun s _ _ => ({ success := true, output := "" }, s)) (fun _ => none)
     "" "t" "" 3 () (by decide)
     (fun _ => ⟨⟨"", [⟨"1", "run_command", ""⟩]⟩, rfl, by decide, by decide⟩)⟩

/-- A concrete instance of C8: the planner that always answers "hmm",
with `max_steps = 2`. -/
theorem text_only_responses_cap_witness :
    2 ≤ 2 ∧
    ((∃ c₁ c₂, run_agent_loop (σ := Unit) (fun _ => PlannerTurn.ok ⟨"hmm", []⟩)
        (fun s _ _ => ({ success := true, output := "" }, s)) (fun _ => none)
        "" "t" "" 2 () =
      [{ step_number := 1, type := "thinking", content := c₁ },
       { step_number := 2, type := "complete", content := c₂ }]) ∧
    (∀ {σ2 : Type} (p2 : Planner) (e2 : σ2 → String → ToolArgs → ToolResult × σ2)
      (pa2 : String → Option ToolArgs) (ms2 fuel n ctr ctr' : Nat)
      (msgs : List Message) (s : σ2) (resp : PlannerResponse),
      p2 msgs = .ok resp → resp.tool_calls ≠ [] →
      loopAux p2 e2 pa2 ms2 (fuel + 1) n ctr msgs s =
        loopAux p2 e2 pa2 ms2 (fuel + 1) n ctr' msgs s)) :=
  ⟨Nat.le_refl 2,
   text_only_responses_cap (σ := Unit) (fun _ => PlannerTurn.ok ⟨"hmm", []⟩)
     (fun s _ _ => ({ success := true, output := "" }, s)) (fun _ => none)
     "" "t" "" 2 ()
     (fun _ => ⟨"hmm", rfl, by decide, by decide⟩) (Nat.le_refl 2)⟩
